import Mathlib

/-!
Verification development for the `commit2consumer` repository core:
a shallow embedding of the chunking, vector-index and context-assembly
logic of `backend/app/services/text_splitter.py`,
`backend/app/services/vector_service.py` and
`backend/app/services/rag_service.py`, together with proofs of the
specified properties.
-/

namespace CommitTwoConsumer

/-- Configuration defaults from `backend/app/core/config.py`:
`CHUNK_SIZE: int = 1000`. -/
def CHUNK_SIZE : Nat := 1000

/-- Configuration defaults from `backend/app/core/config.py`:
`CHUNK_OVERLAP: int = 200`. -/
def CHUNK_OVERLAP : Nat := 200

/-- One chunk dictionary produced by `TextSplitter`.  The Python code builds
dicts with keys `content`, `type`, `start_line`, `end_line`, `language`,
`file_path`, and (for markdown sections only) `title`; the optional `title`
field is `none` for non-markdown chunks.  Line numbers are Python ints,
modelled as `Int`. -/
structure Chunk where
  content : String
  type : String
  start_line : Int
  end_line : Int
  language : String
  file_path : String
  title : Option String := none
deriving DecidableEq

/-- Python `s.split('\n')` at the character-list level: the empty text gives
one empty piece, and each newline character ends the current piece. -/
def splitCharsOnNL : List Char → List (List Char)
  | [] => [[]]
  | c :: cs =>
    match splitCharsOnNL cs with
    | [] => [[]]
    | l :: ls => if c = '\n' then [] :: l :: ls else (c :: l) :: ls

/-- `content.split('\n')` as used throughout `text_splitter.py`. -/
def splitLines (s : String) : List String :=
  (splitCharsOnNL s.data).map (fun l => String.mk l)

/-- Python `'\n'.join(lines)` as used to build chunk contents. -/
def joinLines : List String → String
  | [] => ""
  | [l] => l
  | l :: l2 :: ls => l ++ "\n" ++ joinLines (l2 :: ls)

/-- The loop of `TextSplitter._split_by_text` (the non-markdown, sliding
window branch, lines 97-138 of `text_splitter.py`).  State: the remaining
lines, the running index `i` of Python's `enumerate`, `current_chunk`,
`current_size`, and the accumulated `chunks` list.  `total` is
`len(lines)`, used by the final-chunk step. -/
def textLoop (chunkSize chunkOverlap : Nat) (language filePath : String)
    (total : Nat) :
    List String → Nat → List String → Nat → List Chunk → List Chunk
  | [], _, currentChunk, _, chunks =>
    if currentChunk.isEmpty then chunks
    else
      chunks ++ [{ content := joinLines currentChunk, type := "text_chunk",
                   start_line := (total : Int) - currentChunk.length,
                   end_line := (total : Int) - 1,
                   language := language, file_path := filePath }]
  | line :: rest, i, currentChunk, currentSize, chunks =>
    if currentSize + line.length > chunkSize ∧ currentChunk ≠ [] then
      let chunk : Chunk :=
        { content := joinLines currentChunk, type := "text_chunk",
          start_line := (i : Int) - currentChunk.length,
          end_line := (i : Int) - 1,
          language := language, file_path := filePath }
      let overlapLines := max 1 (currentChunk.length * chunkOverlap / chunkSize)
      let seeded :=
        if 0 < overlapLines then
          currentChunk.drop (currentChunk.length - overlapLines)
        else []
      textLoop chunkSize chunkOverlap language filePath total rest (i + 1)
        (seeded ++ [line]) ((seeded.map String.length).sum + line.length)
        (chunks ++ [chunk])
    else
      textLoop chunkSize chunkOverlap language filePath total rest (i + 1)
        (currentChunk ++ [line]) (currentSize + line.length) chunks

/-- Python `line.strip('# ')`: remove the longest prefix and the longest
suffix consisting of `'#'` and `' '` characters. -/
def stripHashSpace (s : String) : String :=
  String.mk
    (((s.data.dropWhile (fun c => c = '#' ∨ c = ' ')).reverse.dropWhile
        (fun c => c = '#' ∨ c = ' ')).reverse)

/-- The whitespace characters Python's `str.strip()` removes (the ASCII
ones: space, tab, newline, carriage return, vertical tab, form feed). -/
def isPyWhitespace (c : Char) : Bool :=
  c = ' ' || c = '\t' || c = '\n' || c = '\r' || c = '\x0b' || c = '\x0c'

/-- A line that starts a new markdown section:
`line.strip().startswith('#')`, i.e. after stripping surrounding
whitespace the first character is `'#'` (stripping the trailing side
cannot change the first character). -/
def isHeaderLine (line : String) : Bool :=
  match line.data.dropWhile isPyWhitespace with
  | [] => false
  | c :: _ => c = '#'

/-- The loop of `TextSplitter._split_markdown` (lines 149-183 of
`text_splitter.py`).  State: the remaining lines, the index `i`,
`current_section`, `current_title`, `start_line`, and the accumulated
chunks.  `total` is `len(lines)`. -/
def mdLoop (filePath : String) (total : Nat) :
    List String → Nat → List String → String → Nat → List Chunk → List Chunk
  | [], _, currentSection, currentTitle, startLine, chunks =>
    if currentSection.isEmpty then chunks
    else
      chunks ++ [{ content := joinLines currentSection,
                   type := "markdown_section", title := some currentTitle,
                   start_line := (startLine : Int),
                   end_line := (total : Int) - 1,
                   language := "markdown", file_path := filePath }]
  | line :: rest, i, currentSection, currentTitle, startLine, chunks =>
    if isHeaderLine line then
      let chunks' :=
        if currentSection.isEmpty then chunks
        else
          chunks ++ [{ content := joinLines currentSection,
                       type := "markdown_section", title := some currentTitle,
                       start_line := (startLine : Int),
                       end_line := (i : Int) - 1,
                       language := "markdown", file_path := filePath }]
      mdLoop filePath total rest (i + 1) [line] (stripHashSpace line) i chunks'
    else
      mdLoop filePath total rest (i + 1) (currentSection ++ [line])
        currentTitle startLine chunks

/-- `TextSplitter._split_markdown(content, file_path)`. -/
def split_markdown (content filePath : String) : List Chunk :=
  mdLoop filePath (splitLines content).length (splitLines content) 0 []
    "Introduction" 0 []

/-- `TextSplitter._split_by_text(content, language, file_path)`: markdown is
split by sections, everything else by the sliding window. -/
def split_by_text (chunkSize chunkOverlap : Nat)
    (content language filePath : String) : List Chunk :=
  if language = "markdown" then split_markdown content filePath
  else
    textLoop chunkSize chunkOverlap language filePath
      (splitLines content).length (splitLines content) 0 [] 0 []

/-- A top-level tree-sitter node, reduced to the fields
`_split_with_ast` reads: `node.type`, `node.start_point[0]` and
`node.end_point[0]`.  The parser itself is an external capability. -/
structure AstNode where
  type : String
  start_point : Nat
  end_point : Nat
deriving DecidableEq

/-- `TextSplitter._split_with_ast`, given the children of the parse tree's
root node (the external tree-sitter output).  Keeps the nodes whose type is
a function/class/method definition, emits one chunk per kept node spanning
`lines[start_point : end_point + 1]`, and falls back to
`_split_by_text` when no such node exists. -/
def split_with_ast (chunkSize chunkOverlap : Nat) (nodes : List AstNode)
    (content language filePath : String) : List Chunk :=
  let lines := splitLines content
  let chunks :=
    (nodes.filter (fun n =>
        n.type = "function_definition" ∨ n.type = "class_definition" ∨
          n.type = "method_definition")).map
      (fun n =>
        { content :=
            joinLines ((lines.drop n.start_point).take
              (n.end_point + 1 - n.start_point)),
          type := n.type,
          start_line := (n.start_point : Int),
          end_line := (n.end_point : Int),
          language := language, file_path := filePath })
  if chunks.isEmpty then split_by_text chunkSize chunkOverlap content language filePath
  else chunks

/-- `TextSplitter.split_code(content, language, file_path)`.
`parseResult` models the external tree-sitter step: `some nodes` when
`language in self.parsers` and parsing returned a tree whose root has the
given children; `none` when no parser is registered for the language or
parsing raised (the `except` branch), in which case the code falls back to
`_split_by_text`. -/
def split_code (chunkSize chunkOverlap : Nat)
    (parseResult : Option (List AstNode))
    (content language filePath : String) : List Chunk :=
  match parseResult with
  | some nodes => split_with_ast chunkSize chunkOverlap nodes content language filePath
  | none => split_by_text chunkSize chunkOverlap content language filePath

/-- A Chroma collection as `vector_service.py` uses it: the metadata tag
`{"repository_id": repo_id}` set by `create_collection`, plus its stored
entries.  Entries are abstract (`E`): their ids, texts, vectors and
metadata play no role in the lifecycle claims. -/
structure Collection (E : Type) where
  repository_id : String
  entries : List E
deriving DecidableEq

/-- The persistent Chroma client state: a map from collection name to the
collection stored under that name, `none` when no such collection exists. -/
def ChromaState (E : Type) := String → Option (Collection E)

/-- The collection name `f"repo_{repo_id.replace('-', '_')}"` computed by
`VectorService.create_collection`. -/
def collectionName (repoId : String) : String :=
  "repo_" ++ String.map (fun c => if c = '-' then '_' else c) repoId

/-- The raw Chroma `client.delete_collection(name=...)`: removes the
collection, or fails when no collection with that name exists. -/
def clientDeleteCollection (E : Type) (st : ChromaState E) (name : String) :
    Except String (ChromaState E) :=
  match st name with
  | none => Except.error "collection not found"
  | some _ => Except.ok (fun n => if n = name then none else st n)

/-- `VectorService.delete_collection` (lines 175-181): the raw delete is
wrapped in `try/except`; a failure is only logged, so the operation always
succeeds and a missing collection leaves the state unchanged. -/
def delete_collection (E : Type) (st : ChromaState E) (name : String) :
    ChromaState E :=
  match clientDeleteCollection E st name with
  | Except.ok st' => st'
  | Except.error _ => st

/-- `VectorService.create_collection` (lines 38-59): derive the name,
delete any existing collection under it (`try ... except Exception: pass`),
then create a fresh empty collection with metadata
`{"repository_id": repo_id}`.  Returns the updated state and the name. -/
def create_collection (E : Type) (st : ChromaState E) (repoId : String) :
    ChromaState E × String :=
  let name := collectionName repoId
  let st1 := delete_collection E st name
  (fun n => if n = name then some { repository_id := repoId, entries := [] }
            else st1 n,
   name)

/-- The persistence step of `VectorService.add_documents`:
`client.get_collection` fails when the name does not exist (so the wrapper
raises `ValueError`), otherwise `collection.add(...)` appends the freshly
built entries to the stored collection. -/
def add_entries (E : Type) (st : ChromaState E) (name : String)
    (newEntries : List E) : Except String (ChromaState E) :=
  match st name with
  | none => Except.error "Failed to add documents to vector store"
  | some c =>
    Except.ok
      (fun n =>
        if n = name then
          some { repository_id := c.repository_id,
                 entries := c.entries ++ newEntries }
        else st n)

/-- `VectorService.search_similar` (lines 115-151).  `backend` models the
external Chroma nearest-neighbour query over the stored entries (returning
up to `nResults` entries by ascending distance).  `get_collection` on a
name that was never created raises, and the surrounding `except` re-raises
`ValueError("Vector search failed: ...")`; this is the `Except.error`
branch. -/
def search_similar (E : Type) (backend : List E → Nat → List E)
    (st : ChromaState E) (name : String) (nResults : Nat) :
    Except String (List E) :=
  match st name with
  | none => Except.error "Vector search failed: collection not found"
  | some c => Except.ok (backend c.entries nResults)

/-- `VectorService._generate_embeddings` (lines 153-165): the external
model encodes each text independently, so one call is a map of the
model function over the texts, in order. -/
def generate_embeddings (V : Type) (model : String → V)
    (texts : List String) : List V :=
  texts.map model

/-- The batching loop of `VectorService.add_documents` (lines 93-98):
`for i in range(0, len(all_chunks), 32)`, embedding each slice
`all_chunks[i:i+32]` and extending `all_embeddings` with the result. -/
def batchedEmbeddings (V : Type) (model : String → V) :
    List String → List V
  | [] => []
  | t :: rest =>
    generate_embeddings V model ((t :: rest).take 32) ++
      batchedEmbeddings V model ((t :: rest).drop 32)
termination_by ts => ts.length
decreasing_by
  simp only [List.length_drop, List.length_cons]
  omega

/-- `VectorService.count_tokens` (lines 167-173), in its in-source
approximate branch (`self.tokenizer is None`): `len(text) // 4`.  The
exact branch delegates to the external tiktoken encoder. -/
def count_tokens (text : String) : Nat :=
  text.length / 4

/-- A retrieved chunk as `RAGService._build_context` reads it:
`chunk['content']`, `chunk['metadata']['file_path']`,
`chunk['metadata'].get('language', 'unknown')`. -/
structure RetrievedChunk where
  content : String
  file_path : String
  language : String
deriving DecidableEq

/-- The block `_build_context` builds for one retrieved chunk. -/
def chunkBlock (c : RetrievedChunk) : String :=
  "File: " ++ c.file_path ++ "\n" ++ "Language: " ++ c.language ++ "\n" ++
    "Content:\n" ++ c.content ++ "\n" ++ "---\n"

/-- The accumulation loop of `RAGService._build_context` (lines 77-89):
count the block's tokens, stop (`break`) once the running total would
exceed the budget, otherwise append the block and add its count. -/
def buildContextLoop (maxTokens : Nat) :
    List RetrievedChunk → Nat → List String → List String
  | [], _, parts => parts
  | c :: rest, totalTokens, parts =>
    let blk := chunkBlock c
    let t := count_tokens blk
    if totalTokens + t > maxTokens then parts
    else buildContextLoop maxTokens rest (totalTokens + t) (parts ++ [blk])

/-- `RAGService._build_context(chunks)`: the accumulated parts joined by
`"\n".join(context_parts)`.  `maxTokens` is `self.max_context_tokens`. -/
def build_context (maxTokens : Nat) (chunks : List RetrievedChunk) : String :=
  joinLines (buildContextLoop maxTokens chunks 0 [])

/-- `'\n'.join` at the character-list level, inverse of `splitCharsOnNL`. -/
def joinCharsNL : List (List Char) → List Char
  | [] => []
  | [l] => l
  | l :: l2 :: ls => l ++ '\n' :: joinCharsNL (l2 :: ls)

/-- The chunks tile the line range `[p, q)` exactly: the first starts at
`p`, each next chunk starts right after the previous one ends, and the last
ends at `q - 1` (no gaps, no overlap). -/
def tiles : List Chunk → Int → Int → Prop
  | [], p, q => p = q
  | c :: rest, p, q =>
    c.start_line = p ∧ c.start_line ≤ c.end_line ∧ tiles rest (c.end_line + 1) q

/-- The chunk's content is exactly its line span of `lines`, joined by
newlines. -/
def contentEq (lines : List String) (c : Chunk) : Prop :=
  c.content =
    joinLines ((lines.drop c.start_line.toNat).take
      (c.end_line + 1 - c.start_line).toNat)

/-- Sliding-window chain: the first chunk starts at `p`, each window is a
well-formed line span with content equal to that span, each next window
starts exactly `overlap_lines = max 1 (window_line_count * chunkOverlap /
chunkSize)` lines before the end of the window just emitted, and the last
window ends at the last line. -/
def seedTiles (chunkOverlap chunkSize : Nat) (lines : List String) :
    List Chunk → Int → Prop
  | [], _ => True
  | [c], p =>
    c.start_line = p ∧ c.end_line = (lines.length : Int) - 1 ∧
      c.start_line ≤ c.end_line ∧ contentEq lines c
  | c :: c' :: rest, p =>
    c.start_line = p ∧ c.start_line ≤ c.end_line ∧ contentEq lines c ∧
      seedTiles chunkOverlap chunkSize lines (c' :: rest)
        (c.end_line + 1 -
          ((max 1 ((c.end_line + 1 - c.start_line).toNat * chunkOverlap /
            chunkSize) : Nat) : Int))

/-- Adjacent chunks leave no gap: each chunk starts at or before the line
right after the previous chunk's last line. -/
def chainLe : List Chunk → Prop
  | [] => True
  | [_] => True
  | c :: c' :: rest => c'.start_line ≤ c.end_line + 1 ∧ chainLe (c' :: rest)

/-- The carried `(current_title, start_line)` pair of the markdown loop, and
likewise each emitted section, names its section correctly: a section that
starts at a heading line is titled by that line with leading and trailing
`'#'`/`' '` characters stripped, and the initial non-heading section is
titled `"Introduction"`. -/
def titleInv (lines : List String) (title : String) (start : Nat) : Prop :=
  ∀ l, lines.get? start = some l →
    (isHeaderLine l = true → title = stripHashSpace l) ∧
    (isHeaderLine l = false → title = "Introduction")

/-- Per-chunk form of `titleInv`. -/
def titleFor (lines : List String) (c : Chunk) : Prop :=
  ∀ l, lines.get? c.start_line.toNat = some l →
    (isHeaderLine l = true → c.title = some (stripHashSpace l)) ∧
    (isHeaderLine l = false → c.title = some "Introduction")

/-- The spec's words for the markdown section title ("the heading line with
leading `#`/space characters stripped"): strip only the longest prefix of
`'#'` and `' '` characters, preserve the end of the line.  Compared against
the source's `line.strip('# ')` in the C7 analysis. -/
def stripLeadingHashSpace (s : String) : String :=
  String.mk (s.data.dropWhile (fun c => c = '#' ∨ c = ' '))

/-! ## Theorems -/

/-! ### Helper lemmas about line splitting and joining -/

theorem splitCharsOnNL_ne_nil (l : List Char) : splitCharsOnNL l ≠ [] := by
  cases l with
  | nil => simp [splitCharsOnNL]
  | cons c cs =>
    rw [splitCharsOnNL]
    cases h : splitCharsOnNL cs with
    | nil => simp
    | cons hd tl =>
      by_cases hc : c = '\n' <;> simp [hc]

theorem splitLines_ne_nil (s : String) : splitLines s ≠ [] := by
  rw [splitLines]
  simpa using splitCharsOnNL_ne_nil s.data

theorem joinLines_cons (l : String) (ls : List String) (h : ls ≠ []) :
    joinLines (l :: ls) = l ++ "\n" ++ joinLines ls := by
  match ls with
  | l2 :: ls' => rfl

theorem joinLines_append (a b : List String) (ha : a ≠ []) (hb : b ≠ []) :
    joinLines (a ++ b) = joinLines a ++ "\n" ++ joinLines b := by
  induction a with
  | nil => exact absurd rfl ha
  | cons x xs ih =>
    cases xs with
    | nil => simpa using joinLines_cons x b hb
    | cons y ys =>
      rw [List.cons_append,
        joinLines_cons x ((y :: ys) ++ b) (by simp),
        joinLines_cons x (y :: ys) (by simp),
        ih (by simp)]
      simp [String.append_assoc]

theorem joinCharsNL_splitCharsOnNL (l : List Char) :
    joinCharsNL (splitCharsOnNL l) = l := by
  induction l with
  | nil => rfl
  | cons c cs ih =>
    rw [splitCharsOnNL]
    cases h : splitCharsOnNL cs with
    | nil => exact absurd h (splitCharsOnNL_ne_nil cs)
    | cons hd tl =>
      rw [h] at ih
      show joinCharsNL (if c = '\n' then [] :: hd :: tl else (c :: hd) :: tl) =
        c :: cs
      by_cases hc : c = '\n'
      · rw [if_pos hc, hc]
        show '\n' :: joinCharsNL (hd :: tl) = '\n' :: cs
        rw [ih]
      · rw [if_neg hc]
        cases tl with
        | nil =>
          show c :: hd = c :: cs
          simp only [joinCharsNL] at ih
          rw [ih]
        | cons t ts =>
          show (c :: hd) ++ '\n' :: joinCharsNL (t :: ts) = c :: cs
          rw [List.cons_append]
          simp only [joinCharsNL] at ih
          rw [ih]

theorem joinLines_map_mk (ls : List (List Char)) :
    joinLines (ls.map (fun l => String.mk l)) = String.mk (joinCharsNL ls) := by
  induction ls with
  | nil => rfl
  | cons x xs ih =>
    cases xs with
    | nil => rfl
    | cons y ys =>
      rw [List.map_cons, joinLines_cons _ _ (by simp), ih]
      apply String.ext
      rw [String.data_append, String.data_append]
      simp [joinCharsNL]

theorem joinLines_splitLines (s : String) :
    joinLines (splitLines s) = s := by
  rw [splitLines, joinLines_map_mk, joinCharsNL_splitCharsOnNL]

/-! ### Helper lemmas about the sliding-window loop -/

theorem textLoop_append (cs co : Nat) (lang fp : String) (total : Nat) :
    ∀ (rest : List String) (i : Nat) (cur : List String) (size : Nat)
      (acc : List Chunk),
      textLoop cs co lang fp total rest i cur size acc =
        acc ++ textLoop cs co lang fp total rest i cur size [] := by
  intro rest
  induction rest with
  | nil =>
    intro i cur size acc
    rw [textLoop, textLoop]
    by_cases h : cur.isEmpty <;> simp [h]
  | cons line rest ih =>
    intro i cur size acc
    rw [textLoop, textLoop]
    by_cases h : size + line.length > cs ∧ cur ≠ []
    · rw [if_pos h, if_pos h]
      simp only
      rw [ih _ _ _ (acc ++ [_]), ih _ _ _ ([] ++ [_])]
      simp
    · rw [if_neg h, if_neg h, ih _ _ _ acc]

theorem textLoop_ne_nil (cs co : Nat) (lang fp : String) (total : Nat) :
    ∀ (rest : List String) (i : Nat) (cur : List String) (size : Nat)
      (acc : List Chunk),
      rest ≠ [] ∨ cur ≠ [] ∨ acc ≠ [] →
      textLoop cs co lang fp total rest i cur size acc ≠ [] := by
  intro rest
  induction rest with
  | nil =>
    intro i cur size acc h
    rw [textLoop]
    by_cases hc : cur.isEmpty
    · rw [List.isEmpty_iff] at hc
      rcases h with h | h | h
      · exact absurd rfl h
      · exact absurd hc h
      · simpa [hc] using h
    · simp [hc]
  | cons line rest ih =>
    intro i cur size acc h
    rw [textLoop]
    by_cases hc : size + line.length > cs ∧ cur ≠ []
    · rw [if_pos hc]
      exact ih _ _ _ _ (Or.inr (Or.inl (by simp)))
    · rw [if_neg hc]
      exact ih _ _ _ _ (Or.inr (Or.inl (by simp)))

theorem textLoop_bounds (cs co : Nat) (lang fp : String) (total : Nat) :
    ∀ (rest : List String) (i : Nat) (cur : List String) (size : Nat),
      i + rest.length = total →
      cur.length ≤ i →
      ∀ c ∈ textLoop cs co lang fp total rest i cur size [],
        0 ≤ c.start_line ∧ c.start_line ≤ c.end_line ∧
          c.end_line < (total : Int) := by
  intro rest
  induction rest with
  | nil =>
    intro i cur size htot hlen c hc
    rw [textLoop] at hc
    by_cases hemp : cur.isEmpty
    · simp [hemp] at hc
    · rw [if_neg hemp] at hc
      have hne : cur ≠ [] := by simpa [List.isEmpty_iff] using hemp
      simp only [List.nil_append, List.mem_singleton] at hc
      subst hc
      simp only [List.length_nil, Nat.add_zero] at htot
      have h1 : 1 ≤ cur.length := List.length_pos.mpr hne
      refine ⟨?_, ?_, ?_⟩ <;> simp <;> omega
  | cons line rest ih =>
    intro i cur size htot hlen c hc
    rw [textLoop] at hc
    by_cases hcond : size + line.length > cs ∧ cur ≠ []
    · rw [if_pos hcond] at hc
      simp only at hc
      rw [textLoop_append] at hc
      simp only [List.nil_append] at hc
      rcases List.mem_append.mp hc with h1 | h2
      · rw [List.mem_singleton] at h1
        subst h1
        have h1 : 1 ≤ cur.length := List.length_pos.mpr hcond.2
        have h2 : i < total := by simp at htot; omega
        refine ⟨?_, ?_, ?_⟩ <;> simp <;> omega
      · refine ih (i + 1) _ _ ?_ ?_ c h2
        · simp at htot ⊢; omega
        · have hseed : (if 0 < max 1 (cur.length * co / cs) then
              cur.drop (cur.length - max 1 (cur.length * co / cs))
            else []).length ≤ cur.length := by
            split
            · simp
            · simp
          simp only [List.length_append, List.length_cons, List.length_nil]
          omega
    · rw [if_neg hcond] at hc
      refine ih (i + 1) _ _ ?_ ?_ c hc
      · simp at htot ⊢; omega
      · simp; omega

theorem seedTiles_cons_cons (co cs : Nat) (lines : List String)
    (c c2 : Chunk) (r : List Chunk) (p : Int) :
    seedTiles co cs lines (c :: c2 :: r) p ↔
      (c.start_line = p ∧ c.start_line ≤ c.end_line ∧ contentEq lines c ∧
        seedTiles co cs lines (c2 :: r)
          (c.end_line + 1 -
            ((max 1 ((c.end_line + 1 - c.start_line).toNat * co / cs) :
              Nat) : Int))) :=
  Iff.rfl

theorem seedTiles_head (co cs : Nat) (lines : List String) (c : Chunk)
    (r : List Chunk) (p : Int) (h : seedTiles co cs lines (c :: r) p) :
    c.start_line = p := by
  cases r with
  | nil => exact h.1
  | cons c' r' => exact h.1

theorem seedTiles_chainLe (co cs : Nat) (lines : List String) :
    ∀ (l : List Chunk) (p : Int), seedTiles co cs lines l p → chainLe l := by
  intro l
  induction l with
  | nil => intro p _; trivial
  | cons c rest ih =>
    intro p h
    cases rest with
    | nil => trivial
    | cons c' r =>
      rw [seedTiles] at h
      rw [chainLe]
      refine ⟨?_, ih _ h.2.2.2⟩
      rw [seedTiles_head co cs lines c' r _ h.2.2.2]
      have : (0 : Int) ≤
          ((max 1 ((c.end_line + 1 - c.start_line).toNat * co / cs) : Nat) : Int) := by
        positivity
      omega

theorem textLoop_seedTiles (cs co : Nat) (hcs : 0 < cs) (hco : co ≤ cs)
    (lang fp : String) (lines : List String) :
    ∀ (rest : List String) (i st : Nat) (cur : List String) (size : Nat),
      rest = lines.drop i →
      i ≤ lines.length →
      lines.drop st = cur ++ lines.drop i →
      st + cur.length = i →
      cur ≠ [] →
      seedTiles co cs lines
        (textLoop cs co lang fp lines.length rest i cur size [])
        (st : Int) := by
  intro rest
  induction rest with
  | nil =>
    intro i st cur size hrest hile hcat hst hne
    have hitot : i = lines.length := by
      have := List.drop_eq_nil_iff.mp hrest.symm
      omega
    have hcur : cur = (lines.drop st).take cur.length := by
      rw [hcat, List.take_left]
    rw [textLoop, if_neg (by simpa [List.isEmpty_iff] using hne)]
    have h1 : 1 ≤ cur.length := List.length_pos.mpr hne
    simp only [List.nil_append]
    rw [seedTiles]
    refine ⟨by simp; omega, by simp, by simp; omega, ?_⟩
    rw [contentEq]
    simp only
    have e1 : (((lines.length : Int) - cur.length).toNat) = st := by omega
    have e2 : (((lines.length : Int) - 1 + 1 -
        ((lines.length : Int) - cur.length)).toNat) = cur.length := by omega
    rw [e1, e2, ← hcur]
  | cons line rest ih =>
    intro i st cur size hrest hile hcat hst hne
    have hlt : i < lines.length := by
      by_contra hge
      rw [List.drop_eq_nil_iff.mpr (by omega)] at hrest
      exact List.noConfusion hrest
    have hrest' : rest = lines.drop (i + 1) := by
      have h2 : lines.drop (i + 1) = (lines.drop i).drop 1 := by
        rw [List.drop_drop]
      rw [h2, ← hrest]
      rfl
    have h1 : 1 ≤ cur.length := List.length_pos.mpr hne
    have hdropi : lines.drop i = line :: rest := hrest.symm
    rw [textLoop]
    by_cases hcond : size + line.length > cs ∧ cur ≠ []
    · rw [if_pos hcond]
      simp only
      rw [textLoop_append]
      simp only [List.nil_append]
      -- the overlap is positive and at most the window's line count
      set ov := max 1 (cur.length * co / cs) with hov
      have hovpos : 0 < ov := by positivity
      have hovle : ov ≤ cur.length := by
        have hd : cur.length * co / cs ≤ cur.length := by
          calc cur.length * co / cs ≤ cur.length * cs / cs :=
            Nat.div_le_div_right (Nat.mul_le_mul_left _ hco)
          _ = cur.length := Nat.mul_div_cancel _ hcs
        omega
      rw [if_pos hovpos]
      have hseedlen : (cur.drop (cur.length - ov)).length = ov := by
        simp only [List.length_drop]
        omega
      -- the next window sits at start index i - ov
      have hcat' : lines.drop (i - ov) =
          (cur.drop (cur.length - ov) ++ [line]) ++ lines.drop (i + 1) := by
        have e1 : i - ov = st + (cur.length - ov) := by omega
        rw [e1, ← List.drop_drop, hcat,
          List.drop_append_of_le_length (by omega), hdropi]
        simp [← hrest']
      have hmain := ih (i + 1) (i - ov) (cur.drop (cur.length - ov) ++ [line])
        ((List.map String.length (cur.drop (cur.length - ov))).sum + line.length)
        hrest' (by omega) hcat'
        (by rw [List.length_append, hseedlen, List.length_singleton]; omega)
        (by simp)
      cases hout : textLoop cs co lang fp lines.length rest (i + 1)
          (cur.drop (cur.length - ov) ++ [line])
          ((List.map String.length (cur.drop (cur.length - ov))).sum + line.length)
          [] with
      | nil =>
        exact absurd hout
          (textLoop_ne_nil cs co lang fp lines.length rest (i + 1) _ _ []
            (Or.inr (Or.inl (by simp))))
      | cons c' out' =>
        rw [hout] at hmain
        rw [List.singleton_append, seedTiles_cons_cons]
        have hcur : cur = (lines.drop st).take cur.length := by
          rw [hcat, List.take_left]
        refine ⟨?_, ?_, ?_, ?_⟩
        · simp only
          omega
        · simp only
          omega
        · rw [contentEq]
          simp only
          have e1 : (((i : Int) - cur.length).toNat) = st := by omega
          have e2 : (((i : Int) - 1 + 1 - ((i : Int) - cur.length)).toNat) =
              cur.length := by omega
          rw [e1, e2, ← hcur]
        · simp only
          have e2 : (((i : Int) - 1 + 1 - ((i : Int) - cur.length)).toNat) =
              cur.length := by omega
          rw [e2, ← hov]
          have e4 : (i : Int) - 1 + 1 - ((ov : Nat) : Int) =
              ((i - ov : Nat) : Int) := by omega
          rw [e4]
          exact hmain
    · rw [if_neg hcond]
      have hcat2 : lines.drop st = (cur ++ [line]) ++ lines.drop (i + 1) := by
        rw [hcat, hdropi]
        simp [← hrest']
      have hmain := ih (i + 1) st (cur ++ [line]) (size + line.length)
        hrest' (by omega) hcat2
        (by rw [List.length_append, List.length_singleton]; omega)
        (by simp)
      exact hmain

/-! ### Helper lemmas about the markdown loop -/

theorem mdLoop_append (fp : String) (total : Nat) :
    ∀ (rest : List String) (i : Nat) (cur : List String) (title : String)
      (start : Nat) (acc : List Chunk),
      mdLoop fp total rest i cur title start acc =
        acc ++ mdLoop fp total rest i cur title start [] := by
  intro rest
  induction rest with
  | nil =>
    intro i cur title start acc
    rw [mdLoop, mdLoop]
    by_cases h : cur.isEmpty <;> simp [h]
  | cons line rest ih =>
    intro i cur title start acc
    rw [mdLoop, mdLoop]
    by_cases h : isHeaderLine line
    · rw [if_pos h, if_pos h]
      simp only
      by_cases hc : cur.isEmpty
      · simp only [hc, if_pos]
        rw [ih _ _ _ _ acc]
      · simp only [hc, if_neg, Bool.false_eq_true, if_false]
        rw [ih _ _ _ _ (acc ++ [_]), ih _ _ _ _ ([] ++ [_])]
        simp
    · rw [if_neg h, if_neg h, ih _ _ _ _ acc]

theorem mdLoop_ne_nil (fp : String) (total : Nat) :
    ∀ (rest : List String) (i : Nat) (cur : List String) (title : String)
      (start : Nat) (acc : List Chunk),
      rest ≠ [] ∨ cur ≠ [] ∨ acc ≠ [] →
      mdLoop fp total rest i cur title start acc ≠ [] := by
  intro rest
  induction rest with
  | nil =>
    intro i cur title start acc h
    rw [mdLoop]
    by_cases hc : cur.isEmpty
    · rw [List.isEmpty_iff] at hc
      rcases h with h | h | h
      · exact absurd rfl h
      · exact absurd hc h
      · simpa [hc] using h
    · simp [hc]
  | cons line rest ih =>
    intro i cur title start acc h
    rw [mdLoop]
    by_cases hh : isHeaderLine line
    · rw [if_pos hh]
      exact ih _ _ _ _ _ (Or.inr (Or.inl (by simp)))
    · rw [if_neg hh]
      exact ih _ _ _ _ _ (Or.inr (Or.inl (by simp)))

theorem tiles_le : ∀ (l : List Chunk) (p q : Int), tiles l p q → p ≤ q := by
  intro l
  induction l with
  | nil => intro p q h; exact le_of_eq h
  | cons c rest ih =>
    intro p q h
    rw [tiles] at h
    have := ih _ _ h.2.2
    omega

theorem tiles_bounds : ∀ (l : List Chunk) (p q : Int), tiles l p q →
    ∀ c ∈ l, p ≤ c.start_line ∧ c.start_line ≤ c.end_line ∧ c.end_line < q := by
  intro l
  induction l with
  | nil => intro p q _ c hc; simp at hc
  | cons c0 rest ih =>
    intro p q h c hc
    rw [tiles] at h
    rcases List.mem_cons.mp hc with h1 | h2
    · subst h1
      have := tiles_le rest _ _ h.2.2
      exact ⟨le_of_eq h.1.symm, h.2.1, by omega⟩
    · have := ih _ _ h.2.2 c h2
      omega

theorem mdLoop_spec (fp : String) (lines : List String) :
    ∀ (rest : List String) (i st : Nat) (cur : List String) (title : String),
      rest = lines.drop i →
      i ≤ lines.length →
      lines.drop st = cur ++ lines.drop i →
      st + cur.length = i →
      cur ≠ [] →
      titleInv lines title st →
      (mdLoop fp lines.length rest i cur title st [] ≠ [] ∧
       tiles (mdLoop fp lines.length rest i cur title st []) (st : Int)
         (lines.length : Int) ∧
       joinLines ((mdLoop fp lines.length rest i cur title st []).map
         (fun c => c.content)) = joinLines (lines.drop st) ∧
       ∀ c ∈ mdLoop fp lines.length rest i cur title st [],
         c.type = "markdown_section" ∧ titleFor lines c) := by
  intro rest
  induction rest with
  | nil =>
    intro i st cur title hrest hile hcat hst hne htitle
    have hitot : i = lines.length := by
      have := List.drop_eq_nil_iff.mp hrest.symm
      omega
    have h1 : 1 ≤ cur.length := List.length_pos.mpr hne
    have hcurval : cur = lines.drop st := by
      rw [hcat, hitot, List.drop_length, List.append_nil]
    rw [mdLoop, if_neg (by simpa [List.isEmpty_iff] using hne)]
    simp only [List.nil_append]
    refine ⟨by simp, ?_, ?_, ?_⟩
    · rw [tiles]
      refine ⟨rfl, by simp; omega, ?_⟩
      rw [tiles]
      simp only
      omega
    · simp only [List.map_cons, List.map_nil]
      rw [joinLines, ← hcurval]
    · intro c hc
      rw [List.mem_singleton] at hc
      subst hc
      refine ⟨rfl, ?_⟩
      intro l hl
      simp only [Int.toNat_ofNat] at hl
      have := htitle l hl
      exact ⟨fun hh => by rw [(this.1 hh)], fun hh => by rw [(this.2 hh)]⟩
  | cons line rest ih =>
    intro i st cur title hrest hile hcat hst hne htitle
    have hlt : i < lines.length := by
      by_contra hge
      rw [List.drop_eq_nil_iff.mpr (by omega)] at hrest
      exact List.noConfusion hrest
    have hrest' : rest = lines.drop (i + 1) := by
      have h2 : lines.drop (i + 1) = (lines.drop i).drop 1 := by
        rw [List.drop_drop]
      rw [h2, ← hrest]
      rfl
    have h1 : 1 ≤ cur.length := List.length_pos.mpr hne
    have hdropi : lines.drop i = line :: rest := hrest.symm
    have hgeti : lines.get? i = some line := by
      have := List.get?_drop lines i 0
      rw [hdropi] at this
      simpa using this.symm
    rw [mdLoop]
    by_cases hh : isHeaderLine line
    · rw [if_pos hh]
      simp only [List.isEmpty_iff]
      rw [if_neg hne]
      simp only [List.nil_append]
      rw [mdLoop_append]
      have hmain := ih (i + 1) i [line] (stripHashSpace line)
        hrest' (by omega)
        (by rw [hdropi, hrest']; rfl)
        (by simp)
        (by simp)
        (by
          intro l hl
          rw [hgeti] at hl
          injection hl with hl
          subst hl
          exact ⟨fun _ => rfl, fun hfalse => absurd hh (by simp [hfalse])⟩)
      obtain ⟨hne', htiles', hjoin', htitles'⟩ := hmain
      cases hout : mdLoop fp lines.length rest (i + 1) [line]
          (stripHashSpace line) i [] with
      | nil => exact absurd hout hne'
      | cons c' out' =>
        rw [hout] at htiles' hjoin' htitles'
        refine ⟨by simp, ?_, ?_, ?_⟩
        · rw [List.singleton_append, tiles]
          refine ⟨rfl, by simp; omega, ?_⟩
          have e1 : (i : Int) - 1 + 1 = ((i : Nat) : Int) := by omega
          rw [e1]
          exact htiles'
        · rw [List.singleton_append, List.map_cons]
          simp only
          rw [joinLines_cons _ _ (by simp), hjoin']
          rw [hcat, joinLines_append cur (lines.drop i) hne (by rw [hdropi]; simp)]
        · intro c hc
          rw [List.singleton_append, List.mem_cons] at hc
          rcases hc with h1c | h2c
          · subst h1c
            refine ⟨rfl, ?_⟩
            intro l hl
            simp only [Int.toNat_ofNat] at hl
            have := htitle l hl
            exact ⟨fun hhh => by rw [(this.1 hhh)],
              fun hhh => by rw [(this.2 hhh)]⟩
          · exact htitles' c h2c
    · rw [if_neg hh]
      have hmain := ih (i + 1) st (cur ++ [line]) title
        hrest' (by omega)
        (by rw [hcat, hdropi, hrest']; simp)
        (by simp; omega)
        (by simp)
        htitle
      exact hmain

theorem mdLoop_step_zero (fp : String) (total : Nat) (line : String)
    (rest : List String) (title : String) :
    mdLoop fp total (line :: rest) 0 [] title 0 [] =
      if isHeaderLine line then
        mdLoop fp total rest 1 [line] (stripHashSpace line) 0 []
      else mdLoop fp total rest 1 [line] title 0 [] := by
  rw [mdLoop]
  by_cases hh : isHeaderLine line
  · rw [if_pos hh, if_pos hh]
    rfl
  · rw [if_neg hh, if_neg hh]
    rfl

theorem split_markdown_spec (content filePath : String) :
    split_markdown content filePath ≠ [] ∧
    tiles (split_markdown content filePath) 0
      ((splitLines content).length : Int) ∧
    joinLines ((split_markdown content filePath).map (fun c => c.content)) =
      content ∧
    ∀ c ∈ split_markdown content filePath,
      c.type = "markdown_section" ∧ titleFor (splitLines content) c := by
  cases hli : splitLines content with
  | nil => exact absurd hli (splitLines_ne_nil content)
  | cons l0 r0 =>
    have hlen : 1 ≤ (splitLines content).length := by rw [hli]; simp
    have hr0 : r0 = (splitLines content).drop 1 := by rw [hli]; rfl
    have hcat0 : (splitLines content).drop 0 =
        [l0] ++ (splitLines content).drop 1 := by
      rw [hli]
      rfl
    have hget0 : (splitLines content).get? 0 = some l0 := by rw [hli]; rfl
    have hjoin0 : joinLines ((splitLines content).drop 0) = content := by
      rw [List.drop_zero, joinLines_splitLines]
    have hstep : split_markdown content filePath =
        if isHeaderLine l0 then
          mdLoop filePath (splitLines content).length r0 1 [l0]
            (stripHashSpace l0) 0 []
        else
          mdLoop filePath (splitLines content).length r0 1 [l0]
            "Introduction" 0 [] := by
      rw [split_markdown]
      conv_lhs => rw [hli]
      rw [mdLoop_step_zero]
      rw [← hli]
    rw [hstep, ← hli]
    by_cases hh : isHeaderLine l0
    · rw [if_pos hh]
      have hmain := mdLoop_spec filePath (splitLines content) r0 1 0 [l0]
        (stripHashSpace l0) hr0 hlen hcat0 (by simp) (by simp)
        (by
          intro l hl
          rw [hget0] at hl
          injection hl with hl
          subst hl
          exact ⟨fun _ => rfl, fun hfalse => absurd hh (by simp [hfalse])⟩)
      rw [hjoin0] at hmain
      exact hmain
    · rw [if_neg hh]
      have hmain := mdLoop_spec filePath (splitLines content) r0 1 0 [l0]
        "Introduction" hr0 hlen hcat0 (by simp) (by simp)
        (by
          intro l hl
          rw [hget0] at hl
          injection hl with hl
          subst hl
          exact ⟨fun htrue => absurd htrue (by simp [hh]), fun _ => rfl⟩)
      rw [hjoin0] at hmain
      exact hmain

/-- C1: `create_collection(R)` first deletes any existing collection named
after `R` (ignoring "not found"), then creates a fresh empty collection
tagged `{repository_id: R}`; after a second `create(R)` the collection
contains exactly the entries added after that second create, and no entry
added before it reappears (replace semantics). -/
theorem create_collection_replace (E : Type) (st : ChromaState E)
    (repoId : String) (entriesA entriesB : List E) :
    ((create_collection E st repoId).1 (collectionName repoId) =
      some { repository_id := repoId, entries := [] }) ∧
    ∃ st2,
      add_entries E (create_collection E st repoId).1 (collectionName repoId)
          entriesA = Except.ok st2 ∧
      ((create_collection E st2 repoId).1 (collectionName repoId) =
        some { repository_id := repoId, entries := [] }) ∧
      ∃ st4,
        add_entries E (create_collection E st2 repoId).1 (collectionName repoId)
            entriesB = Except.ok st4 ∧
        st4 (collectionName repoId) =
          some { repository_id := repoId, entries := entriesB } := by
  simp [create_collection, add_entries, delete_collection, clientDeleteCollection]

/-- C8: embedding in fixed-size batches of 32 and concatenating the
per-batch results yields exactly one vector per input text, in the same
order as embedding the whole sequence in one call. -/
theorem batched_embeddings_eq_single (V : Type) (model : String → V)
    (texts : List String) :
    batchedEmbeddings V model texts = generate_embeddings V model texts ∧
    (batchedEmbeddings V model texts).length = texts.length := by
  have key : ∀ n (ts : List String), ts.length ≤ n →
      batchedEmbeddings V model ts = ts.map model := by
    intro n
    induction n with
    | zero =>
      intro ts hts
      rw [Nat.le_zero, List.length_eq_zero] at hts
      subst hts
      simp [batchedEmbeddings]
    | succ n ih =>
      intro ts hts
      match ts with
      | [] => simp [batchedEmbeddings]
      | t :: rest =>
        rw [batchedEmbeddings, generate_embeddings,
          ih ((t :: rest).drop 32) (by simp [List.length_drop] at hts ⊢; omega),
          ← List.map_append, List.take_append_drop]
  constructor
  · exact key texts.length texts le_rfl
  · rw [key texts.length texts le_rfl]
    simp

/-- C5 counterexample: with budget `maxTokens = 16` and two retrieved
chunks, the builder appends both blocks (running total 16 ≤ 16), yet the
assembled context measures 17 tokens under `count_tokens`, exceeding the
budget: the newline separators inserted by `"\n".join` are not counted by
the accumulator. -/
theorem build_context_exceeds_budget :
    count_tokens (build_context 16
      [{ content := "c", file_path := "a", language := "b" },
       { content := "c", file_path := "a", language := "b" }]) = 17 ∧
    16 < count_tokens (build_context 16
      [{ content := "c", file_path := "a", language := "b" },
       { content := "c", file_path := "a", language := "b" }]) := by
  constructor <;> decide

/-- C5 (amended): the builder accumulates the estimated token count per
block and stops appending once the running total would exceed the budget,
so the sum of the per-block token counts of the appended blocks never
exceeds `max_tokens` (the joined context itself can measure up to one
token more per separator newline). -/
theorem build_context_blocks_within_budget (maxTokens : Nat)
    (chunks : List RetrievedChunk) :
    ((buildContextLoop maxTokens chunks 0 []).map count_tokens).sum ≤
      maxTokens := by
  have key : ∀ (cs : List RetrievedChunk) (t : Nat) (parts : List String),
      (parts.map count_tokens).sum = t → t ≤ maxTokens →
      ((buildContextLoop maxTokens cs t parts).map count_tokens).sum ≤
        maxTokens := by
    intro cs
    induction cs with
    | nil =>
      intro t parts hp ht
      simpa [buildContextLoop, hp] using ht
    | cons c rest ih =>
      intro t parts hp ht
      rw [buildContextLoop]
      by_cases hgt : t + count_tokens (chunkBlock c) > maxTokens
      · simpa [hgt, hp] using ht
      · rw [if_neg (by omega)]
        exact ih (t + count_tokens (chunkBlock c)) (parts ++ [chunkBlock c])
          (by simp [hp]) (by omega)
  exact key chunks 0 [] (by simp) (Nat.zero_le _)

/-- C4 counterexample: a query against a collection name that was never
created does not return an empty result: `get_collection` fails and
`search_similar` re-raises `ValueError("Vector search failed: ...")`. -/
theorem search_similar_uncreated_raises :
    (¬ ∃ results, search_similar Unit (fun entries n => entries.take n)
        (fun _ => none) (collectionName "r1") 5 = Except.ok results) ∧
    search_similar Unit (fun entries n => entries.take n) (fun _ => none)
        (collectionName "r1") 5 =
      Except.error "Vector search failed: collection not found" :=
  ⟨by simp [search_similar], rfl⟩

/-- C4 (amended): `delete_collection` against a name that was never created
succeeds without raising (the failure is caught and logged, leaving the
state unchanged), and a query against an existing collection with zero
entries returns an empty sequence, never an error; but `search_similar`
against a never-created name raises `ValueError`, it does not return an
empty result. -/
theorem query_delete_missing_behaviour (E : Type)
    (backend : List E → Nat → List E) (hb : ∀ n, backend [] n = [])
    (st : ChromaState E) (name repoId : String) (n : Nat) :
    (st name = none →
      search_similar E backend st name n =
        Except.error "Vector search failed: collection not found" ∧
      delete_collection E st name = st) ∧
    (st name = some { repository_id := repoId, entries := [] } →
      search_similar E backend st name n = Except.ok []) := by
  constructor
  · intro h
    constructor
    · simp [search_similar, h]
    · simp [delete_collection, clientDeleteCollection, h]
  · intro h
    simp [search_similar, h, hb]

/-- C4 witness: the amended theorem applied at a concrete one-collection
state with the take-prefix backend. -/
theorem query_delete_missing_behaviour_witness :
    (∀ n : Nat, ([] : List Unit).take n = []) ∧
    (((fun nm => if nm = "repo_r" then
        some { repository_id := "r", entries := ([] : List Unit) }
      else none) : ChromaState Unit) "repo_x" = none →
      search_similar Unit (fun entries n => entries.take n)
          (fun nm => if nm = "repo_r" then
            some { repository_id := "r", entries := ([] : List Unit) }
          else none) "repo_x" 5 =
        Except.error "Vector search failed: collection not found" ∧
      delete_collection Unit
          (fun nm => if nm = "repo_r" then
            some { repository_id := "r", entries := ([] : List Unit) }
          else none) "repo_x" =
        (fun nm => if nm = "repo_r" then
          some { repository_id := "r", entries := ([] : List Unit) }
        else none)) ∧
    ((((fun nm => if nm = "repo_r" then
        some { repository_id := "r", entries := ([] : List Unit) }
      else none) : ChromaState Unit) "repo_r" =
        some { repository_id := "r", entries := [] }) →
      search_similar Unit (fun entries n => entries.take n)
          (fun nm => if nm = "repo_r" then
            some { repository_id := "r", entries := ([] : List Unit) }
          else none) "repo_r" 5 = Except.ok []) :=
  ⟨fun n => List.take_nil,
    query_delete_missing_behaviour Unit (fun entries n => entries.take n)
      (fun n => List.take_nil)
      (fun nm => if nm = "repo_r" then
        some { repository_id := "r", entries := ([] : List Unit) }
      else none) "repo_x" "r" 5 |>.1,
    query_delete_missing_behaviour Unit (fun entries n => entries.take n)
      (fun n => List.take_nil)
      (fun nm => if nm = "repo_r" then
        some { repository_id := "r", entries := ([] : List Unit) }
      else none) "repo_r" "r" 5 |>.2⟩

/-- C10: for empty content and a language with no structural parser and not
markdown, `split_code` returns exactly one chunk with empty content, kind
`text_chunk` and `start_line = end_line = 0`; it never returns an empty
sequence even for empty input. -/
theorem split_code_empty_content (chunkSize chunkOverlap : Nat)
    (language filePath : String) (h : language ≠ "markdown") :
    split_code chunkSize chunkOverlap none "" language filePath =
      [{ content := "", type := "text_chunk", start_line := 0, end_line := 0,
         language := language, file_path := filePath }] := by
  have h1 : splitLines "" = [""] := rfl
  rw [split_code, split_by_text, if_neg h, h1]
  simp [textLoop, joinLines]

/-- C10 witness: the theorem applied at language `"python"` (no structural
parser succeeded: `parseResult = none`). -/
theorem split_code_empty_content_witness :
    "python" ≠ "markdown" ∧
    split_code 1000 200 none "" "python" "f.py" =
      [{ content := "", type := "text_chunk", start_line := 0, end_line := 0,
         language := "python", file_path := "f.py" }] :=
  ⟨by decide, split_code_empty_content 1000 200 "python" "f.py" (by decide)⟩

/-- A zero-index step of the sliding-window loop: the first line is always
accumulated, never emitted, because the current window is still empty. -/
theorem textLoop_step_zero (cs co : Nat) (lang fp : String) (total : Nat)
    (line : String) (rest : List String) :
    textLoop cs co lang fp total (line :: rest) 0 [] 0 [] =
      textLoop cs co lang fp total rest 1 [line] (0 + line.length) [] := by
  rw [textLoop, if_neg (by simp)]
  rfl

theorem split_by_text_bounds (cs co : Nat) (content language filePath : String) :
    split_by_text cs co content language filePath ≠ [] ∧
    ∀ c ∈ split_by_text cs co content language filePath,
      0 ≤ c.start_line ∧ c.start_line ≤ c.end_line ∧
        c.end_line < ((splitLines content).length : Int) := by
  by_cases hlang : language = "markdown"
  · rw [split_by_text, if_pos hlang]
    obtain ⟨h1, h2, _, _⟩ := split_markdown_spec content filePath
    exact ⟨h1, fun c hc => tiles_bounds _ _ _ h2 c hc⟩
  · rw [split_by_text, if_neg hlang]
    constructor
    · exact textLoop_ne_nil cs co language filePath (splitLines content).length
        (splitLines content) 0 [] 0 [] (Or.inl (splitLines_ne_nil content))
    · intro c hc
      exact textLoop_bounds cs co language filePath (splitLines content).length
        (splitLines content) 0 [] 0 (by simp) (by simp) c hc

/-- C2: for every non-empty content, every language and every file path,
`split_code` returns at least one chunk, and every returned chunk has
`0 ≤ start_line ≤ end_line <` the number of lines of the content.  The
external tree-sitter parse (when one applies) is assumed to report
top-level nodes whose line span lies within the parsed text, which the
library guarantees. -/
theorem split_code_bounds (cs co : Nat) (hcs : 0 < cs)
    (parseResult : Option (List AstNode)) (content language filePath : String)
    (hcontent : content ≠ "")
    (hnodes : ∀ nodes, parseResult = some nodes → ∀ n ∈ nodes,
      n.start_point ≤ n.end_point ∧
        n.end_point < (splitLines content).length) :
    split_code cs co parseResult content language filePath ≠ [] ∧
    ∀ c ∈ split_code cs co parseResult content language filePath,
      0 ≤ c.start_line ∧ c.start_line ≤ c.end_line ∧
        c.end_line < ((splitLines content).length : Int) := by
  cases parseResult with
  | none =>
    rw [split_code]
    exact split_by_text_bounds cs co content language filePath
  | some nodes =>
    rw [split_code]
    have hb := hnodes nodes rfl
    constructor
    · rw [split_with_ast]
      split
      · exact (split_by_text_bounds cs co content language filePath).1
      · next hemp => simpa [List.isEmpty_iff] using hemp
    · intro c hc
      rw [split_with_ast] at hc
      split at hc
      · exact (split_by_text_bounds cs co content language filePath).2 c hc
      · rw [List.mem_map] at hc
        obtain ⟨n, hn, rfl⟩ := hc
        have hbn := hb n (List.mem_of_mem_filter hn)
        refine ⟨?_, ?_, ?_⟩ <;> simp <;> omega

/-- C2 witness: the theorem applied at a concrete two-line Python file with
one `function_definition` node spanning lines 0-1. -/
theorem split_code_bounds_witness :
    0 < 1000 ∧ ("def f():\n    return 1" : String) ≠ "" ∧
    (∀ nodes, (some [(⟨"function_definition", 0, 1⟩ : AstNode)] :
        Option (List AstNode)) = some nodes →
      ∀ n ∈ nodes, n.start_point ≤ n.end_point ∧
        n.end_point < (splitLines "def f():\n    return 1").length) ∧
    (split_code 1000 200 (some [(⟨"function_definition", 0, 1⟩ : AstNode)])
        "def f():\n    return 1" "python" "a.py" ≠ [] ∧
     ∀ c ∈ split_code 1000 200
        (some [(⟨"function_definition", 0, 1⟩ : AstNode)])
        "def f():\n    return 1" "python" "a.py",
       0 ≤ c.start_line ∧ c.start_line ≤ c.end_line ∧
         c.end_line < ((splitLines "def f():\n    return 1").length : Int)) :=
  ⟨by decide, by decide,
   by intro nodes h; injection h with h; subst h; decide,
   split_code_bounds 1000 200 (by decide) _ _ _ _ (by decide)
     (by intro nodes h; injection h with h; subst h; decide)⟩

/-- C3: for a language with no structural parser and not markdown, the
sliding-window chunks cover the file's lines in order with no gap
(`chainLe`: each chunk's start is at most the previous chunk's end + 1),
the first chunk starts at line 0 and the last ends at the last line, each
chunk's content is exactly its line span, and each next window starts
exactly `overlap_lines = max 1 (window_line_count * chunk_overlap /
chunk_size)` lines before the end of the window just emitted
(`seedTiles`): the next window is seeded with exactly the trailing
`overlap_lines` lines of the window just emitted. -/
theorem split_by_text_window_cover (cs co : Nat) (hcs : 0 < cs)
    (hco : co ≤ cs) (content language filePath : String)
    (hlang : language ≠ "markdown") :
    split_by_text cs co content language filePath ≠ [] ∧
    chainLe (split_by_text cs co content language filePath) ∧
    seedTiles co cs (splitLines content)
      (split_by_text cs co content language filePath) 0 := by
  cases hli : splitLines content with
  | nil => exact absurd hli (splitLines_ne_nil content)
  | cons l0 r0 =>
    have hr0 : r0 = (splitLines content).drop 1 := by rw [hli]; rfl
    have hlen : 1 ≤ (splitLines content).length := by rw [hli]; simp
    have hcat0 : (splitLines content).drop 0 =
        [l0] ++ (splitLines content).drop 1 := by
      rw [hli]
      rfl
    have hstep : split_by_text cs co content language filePath =
        textLoop cs co language filePath (splitLines content).length r0 1
          [l0] (0 + l0.length) [] := by
      rw [split_by_text, if_neg hlang]
      conv_lhs => rw [hli]
      rw [textLoop_step_zero, ← hli]
    have hmain := textLoop_seedTiles cs co hcs hco language filePath
      (splitLines content) r0 1 0 [l0] (0 + l0.length)
      hr0 hlen hcat0 (by simp) (by simp)
    rw [hstep, ← hli]
    refine ⟨?_, ?_, ?_⟩
    · exact textLoop_ne_nil cs co language filePath
        (splitLines content).length r0 1 [l0] (0 + l0.length) []
        (Or.inr (Or.inl (by simp)))
    · exact seedTiles_chainLe co cs (splitLines content) _ _ hmain
    · exact hmain

/-- C3 witness: the theorem applied with `chunk_size = 50`,
`chunk_overlap = 10` on a twelve-line file. -/
theorem split_by_text_window_cover_witness :
    0 < 50 ∧ 10 ≤ 50 ∧ ("go" : String) ≠ "markdown" ∧
    (split_by_text 50 10 "alpha\nbeta\ngamma" "go" "m.go" ≠ [] ∧
     chainLe (split_by_text 50 10 "alpha\nbeta\ngamma" "go" "m.go") ∧
     seedTiles 10 50 (splitLines "alpha\nbeta\ngamma")
       (split_by_text 50 10 "alpha\nbeta\ngamma" "go" "m.go") 0) :=
  ⟨by decide, by decide, by decide,
   split_by_text_window_cover 50 10 (by decide) (by decide)
     "alpha\nbeta\ngamma" "go" "m.go" (by decide)⟩

/-- C6: with `chunk_size = 50` and `chunk_overlap = 10`, a file of 12 lines
of 10 characters each, for a language with no structural parser, yields
exactly 3 sliding windows spanning lines 0-4, 4-8 and 8-11: the last line
of each window (1, which is within 1-2) is repeated at the start of the
next window. -/
theorem split_code_concrete_windows :
    (split_code 50 10 none
      "aaaaaaaaaa\naaaaaaaaaa\naaaaaaaaaa\naaaaaaaaaa\naaaaaaaaaa\naaaaaaaaaa\naaaaaaaaaa\naaaaaaaaaa\naaaaaaaaaa\naaaaaaaaaa\naaaaaaaaaa\naaaaaaaaaa"
      "text" "f.txt").length = 3 ∧
    (split_code 50 10 none
      "aaaaaaaaaa\naaaaaaaaaa\naaaaaaaaaa\naaaaaaaaaa\naaaaaaaaaa\naaaaaaaaaa\naaaaaaaaaa\naaaaaaaaaa\naaaaaaaaaa\naaaaaaaaaa\naaaaaaaaaa\naaaaaaaaaa"
      "text" "f.txt").map (fun c => (c.start_line, c.end_line)) =
      [(0, 4), (4, 8), (8, 11)] ∧
    (split_code 50 10 none
      "aaaaaaaaaa\naaaaaaaaaa\naaaaaaaaaa\naaaaaaaaaa\naaaaaaaaaa\naaaaaaaaaa\naaaaaaaaaa\naaaaaaaaaa\naaaaaaaaaa\naaaaaaaaaa\naaaaaaaaaa\naaaaaaaaaa"
      "text" "f.txt").map (fun c => c.content) =
      ["aaaaaaaaaa\naaaaaaaaaa\naaaaaaaaaa\naaaaaaaaaa\naaaaaaaaaa",
       "aaaaaaaaaa\naaaaaaaaaa\naaaaaaaaaa\naaaaaaaaaa\naaaaaaaaaa",
       "aaaaaaaaaa\naaaaaaaaaa\naaaaaaaaaa\naaaaaaaaaa"] := by
  refine ⟨by decide, by decide, by decide⟩

/-- C7 counterexample: for the heading line `"# Title #"` the code's
`line.strip('# ')` also removes the trailing `'#'`, so the emitted section
title is `"Title"`, not the leading-strip `"Title #"` the claim
describes. -/
theorem markdown_title_counterexample :
    (split_markdown "# Title #\nbody" "doc.md").map (fun c => c.title) =
      [some "Title"] ∧
    stripLeadingHashSpace "# Title #" = "Title #" ∧
    some "Title" ≠ some (stripLeadingHashSpace "# Title #") := by
  refine ⟨by decide, by decide, by decide⟩

/-- C7 (amended): each emitted markdown-section chunk that starts at a
heading line has `section_title` equal to that heading line with its
leading AND trailing `'#'` and `' '` characters stripped (Python
`strip('# ')`); a chunk that starts at a non-heading line (only the
initial section before any heading) is titled `"Introduction"`. -/
theorem markdown_title_strip (content filePath : String) :
    ∀ c ∈ split_markdown content filePath, titleFor (splitLines content) c :=
  fun c hc => ((split_markdown_spec content filePath).2.2.2 c hc).2

/-- C7 witness: the amended theorem applied to the single-section document
`"# Title #\nbody"`. -/
theorem markdown_title_strip_witness :
    ({ content := "# Title #\nbody", type := "markdown_section",
        start_line := 0, end_line := 1, language := "markdown",
        file_path := "doc.md", title := some "Title" } : Chunk) ∈
      split_markdown "# Title #\nbody" "doc.md" ∧
    titleFor (splitLines "# Title #\nbody")
      { content := "# Title #\nbody", type := "markdown_section",
        start_line := 0, end_line := 1, language := "markdown",
        file_path := "doc.md", title := some "Title" } :=
  ⟨by decide,
   markdown_title_strip "# Title #\nbody" "doc.md" _ (by decide)⟩

/-- C9: for every markdown content, the emitted markdown-section chunks
partition the file's lines in emission order with no gaps and no overlap
(`tiles 0 total`: the first chunk starts at line 0, each next chunk starts
at the previous chunk's `end_line + 1`, the last ends at the last line),
and concatenating the chunk contents in order with single newlines
reconstructs the original content exactly. -/
theorem markdown_partition (content filePath : String) :
    split_markdown content filePath ≠ [] ∧
    tiles (split_markdown content filePath) 0
      ((splitLines content).length : Int) ∧
    joinLines ((split_markdown content filePath).map (fun c => c.content)) =
      content :=
  ⟨(split_markdown_spec content filePath).1,
   (split_markdown_spec content filePath).2.1,
   (split_markdown_spec content filePath).2.2.1⟩

end CommitTwoConsumer
